import Mathlib

/-!
Shallow embedding of the `movies_by_release` pipeline
(`fetch_releasedates.py`, `process_releasedates.py`,
`counts_by_releasedate.py`, `plot_days_to_double_movies.py`).

Calendar dates are modelled by their proleptic Gregorian ordinal
(a natural number), matching Python's `datetime.date.toordinal`:
date subtraction is ordinal subtraction, `+ timedelta(days=1)` is `+ 1`,
and comparison of dates is comparison of ordinals.
-/

namespace MoviesByRelease

/-- Proleptic Gregorian ordinal of the calendar date `y-m-d`
(with `0001-01-01 ↦ 1`), as computed by Python's `datetime.date.toordinal`.
Only used to write the spec's concrete dates (e.g. `2020-01-01`) as ordinals. -/
def rataDie (y m d : Nat) : Nat :=
  let yp := y - 1
  let leap : Bool := (y % 4 == 0 && y % 100 != 0) || y % 400 == 0
  let mdays := [0, 31, 59, 90, 120, 151, 181, 212, 243, 273, 304, 334].getD (m - 1) 0
  365 * yp + yp / 4 + yp / 400 - yp / 100 + mdays +
    (if leap && decide (m > 2) then 1 else 0) + d

example : rataDie 2020 1 1 = 737425 := by decide
example : rataDie 2020 1 3 - rataDie 2020 1 1 = 2 := by decide

/-! ## Range bisection (`discover_lte500pages_movies_between`)

`fetch_releasedates.py` lines 120-175.  The service's reply to the page-1
query for a date range is abstracted as a function
`pages : Nat → Nat → Nat` mapping `(start_date, end_date)` to the
`total_pages` field of the returned first page. -/

/-- One bisection step of `discover_lte500pages_movies_between`
(`end_date = start_date + (timediff / 2)` with `timediff = end_date - start_date`).
Python's `date + timedelta` keeps only whole days, so the half-span is
rounded down to a whole number of days. -/
def bisectStep (start_date end_date : Nat) : Nat :=
  start_date + (end_date - start_date) / 2

/-- `discover_lte500pages_movies_between` (`fetch_releasedates.py` lines 120-175):
query page 1 for `[start_date, end_date]`; while `total_pages > 500`,
halve the span (keeping `start_date` fixed — the recursion never changes it)
and re-query.  The unbounded Python `while` loop is given `fuel` iterations;
`none` means the loop has not exited within `fuel` iterations.
On exit it returns the last page's `total_pages` together with the final
`end_date` (the `(data, end_date)` pair returned by the source). -/
def discover_lte500pages (pages : Nat → Nat → Nat) :
    Nat → Nat → Nat → Option (Nat × Nat)
  | 0, _, _ => none
  | fuel + 1, start_date, end_date =>
    if pages start_date end_date > 500 then
      discover_lte500pages pages fuel start_date (bisectStep start_date end_date)
    else
      some (pages start_date end_date, end_date)

/-- C1: for every range `[s, e]` with `s ≤ e`, if the bisection loop
terminates (returns within some fuel), the returned `effective_end_date`
satisfies `s ≤ effective_end_date ≤ e` and the first page returned has
`total_pages ≤ 500`; moreover each bisection step keeps the start date
unchanged (structurally, `discover_lte500pages` passes `start_date` through
unmodified) and maps the end date to a value that is `≥ s` and, when
`s ≤ e`, `≤ e` — so the end date is non-increasing and never drops below
the start date throughout the bisection. -/
theorem discover_range_ok (pages : Nat → Nat → Nat) (fuel s e tp eed : Nat)
    (hse : s ≤ e)
    (h : discover_lte500pages pages fuel s e = some (tp, eed)) :
    s ≤ eed ∧ eed ≤ e ∧ tp ≤ 500 ∧
      s ≤ bisectStep s e ∧ bisectStep s e ≤ e := by
  have hstep : ∀ e', s ≤ bisectStep s e' := fun e' => Nat.le_add_right _ _
  have hstep2 : ∀ e', s ≤ e' → bisectStep s e' ≤ e' := by
    intro e' he'
    calc s + (e' - s) / 2 ≤ s + (e' - s) := by
          exact Nat.add_le_add_left (Nat.div_le_self _ _) s
      _ = e' := Nat.add_sub_cancel' he'
  induction fuel generalizing e with
  | zero => simp [discover_lte500pages] at h
  | succ n ih =>
    rw [discover_lte500pages] at h
    by_cases hp : pages s e > 500
    · rw [if_pos hp] at h
      obtain ⟨h1, h2, h3, _, _⟩ := ih (bisectStep s e) (hstep _) h
      exact ⟨h1, le_trans h2 (hstep2 e hse), h3, hstep e, hstep2 e hse⟩
    · rw [if_neg hp] at h
      obtain ⟨rfl, rfl⟩ : pages s e = tp ∧ e = eed := by
        simpa [Prod.ext_iff] using h
      exact ⟨hse, le_refl e, Nat.le_of_not_lt hp, hstep e, hstep2 e hse⟩

/-- Witness for C1: the range `[0, 5]` under a service that always reports
one page terminates immediately with `effective_end_date = 5`. -/
theorem discover_range_ok_witness :
    (0 : Nat) ≤ 5 ∧ (5 : Nat) ≤ 5 ∧ (1 : Nat) ≤ 500 ∧
      (0 : Nat) ≤ bisectStep 0 5 ∧ bisectStep 0 5 ≤ 5 :=
  discover_range_ok (fun _ _ => 1) 1 0 5 1 5 (by decide) (by rfl)

/-- C3: the source has no termination guard.  If the single-day range
`[s, s]` still reports `total_pages > 500` (here: a service that always
reports 501 pages), the bisection step leaves the range unchanged and the
loop never exits: for every fuel the model returns `none` (still looping),
and in particular no `UnshrinkableRange` error is ever raised — the source
has no such error path at all. -/
theorem discover_unshrinkable_loops_forever (fuel s : Nat) :
    discover_lte500pages (fun _ _ => 501) fuel s s = none := by
  induction fuel with
  | zero => rfl
  | succ n ih =>
    rw [discover_lte500pages, if_pos (by decide)]
    have hb : bisectStep s s = s := by simp [bisectStep]
    rw [hb]
    exact ih

/-- C7 counterexample: it is not true that *every* iteration taken while
`total_pages` exceeds 500 strictly reduces `end_date - start_date`.
Under a service that always reports 501 pages, on the degenerate range
`[0, 0]` the loop takes an iteration (501 > 500), yet the bisection step
leaves the span unchanged (`bisectStep 0 0 - 0 = 0 - 0`), and the loop
indeed never terminates. -/
theorem bisect_no_strict_decrease_cex :
    (fun _ _ => 501 : Nat → Nat → Nat) 0 0 > 500 ∧
      ¬ (bisectStep 0 0 - 0 < 0 - 0) ∧
      discover_lte500pages (fun _ _ => 501) 2 0 0 = none := by
  refine ⟨by decide, by decide, ?_⟩
  rw [discover_lte500pages, if_pos (by decide)]
  rw [show bisectStep 0 0 = 0 from by decide]
  rw [discover_lte500pages, if_pos (by decide)]
  rw [show bisectStep 0 0 = 0 from by decide]
  rfl

/-- C7 amended: each iteration taken while `total_pages > 500` replaces
`end_date` by `start_date + (end_date - start_date) / 2` (the half-span
rounded down to a whole day), and this strictly reduces
`end_date - start_date` whenever `start_date < end_date`; on the degenerate
one-day range (`start_date = end_date`) the span stays zero. -/
theorem bisect_step_strict (pages : Nat → Nat → Nat) (fuel s e : Nat)
    (h5 : pages s e > 500) (hlt : s < e) :
    discover_lte500pages pages (fuel + 1) s e =
        discover_lte500pages pages fuel s (s + (e - s) / 2) ∧
      bisectStep s e - s < e - s := by
  constructor
  · rw [discover_lte500pages, if_pos h5]; rfl
  · have h0 : 0 < e - s := Nat.sub_pos_of_lt hlt
    have : (e - s) / 2 < e - s := Nat.div_lt_self h0 (by decide)
    simpa [bisectStep] using this

/-- Witness for C7's amended theorem: one iteration on `[0, 4]` under a
501-page service recurses on `[0, 2]`, strictly shrinking the span. -/
theorem bisect_step_strict_witness :
    discover_lte500pages (fun _ _ => 501) 1 0 4 =
        discover_lte500pages (fun _ _ => 501) 0 0 (0 + (4 - 0) / 2) ∧
      bisectStep 0 4 - 0 < 4 - 0 :=
  bisect_step_strict (fun _ _ => 501) 0 0 4 (by decide) (by decide)

/-! ## Retry loop (`discover_movies_between`)

`fetch_releasedates.py` lines 177-253.  One query's parameter dictionary is
the `QueryParams` record below; the outcome of the `k`-th call of
`discover_endpoint.discover_movies(params)` (0-indexed) is abstracted as
`op k : Option R` (`none` = the call raised, `some v` = it returned `v`).
`retries` is `some r` for a finite budget and `none` for `math.inf`
(the source's default), in which case the `attempts` counter is never
incremented. -/

/-- The query parameters carried by `discover_movies_between`
(`fetch_releasedates.py` lines 206-218) and reported verbatim in the
`RuntimeError` message raised when the retry budget is exhausted
(lines 246-252). -/
structure QueryParams where
  start_date : Nat
  end_date : Nat
  min_runtime_mins : Option Nat
  one_of_genre_ids : Option (List Nat)
  page : Nat
deriving Repr, DecidableEq

/-- The retry loop of `discover_movies_between` (`fetch_releasedates.py`
lines 220-252): `while (data is None and attempts < retries)`, incrementing
`attempts` only when `retries < math.inf`, retrying on exception, and
raising `RuntimeError` with the exact query parameters once the loop exits
with `data` still `None`.  `k` counts calls made so far (indexing `op`),
`attempts` is the Python counter, `fuel` bounds the unbounded loop:
`none` = still looping after `fuel` iterations, `some (.ok v)` = returned
`v`, `some (.error p)` = raised with parameters `p`. -/
def retryGo {R : Type} (op : Nat → Option R) (p : QueryParams)
    (retries : Option Nat) : Nat → Nat → Nat → Option (Except QueryParams R)
  | _, _, 0 => none
  | k, attempts, fuel + 1 =>
    if match retries with | some r => decide (attempts < r) | none => true then
      let attempts' := match retries with | some _ => attempts + 1 | none => attempts
      match op k with
      | some v => some (Except.ok v)
      | none => retryGo op p retries (k + 1) attempts' fuel
    else
      some (Except.error p)

/-- `discover_movies_between` with the service call abstracted as `op`:
run the retry loop from zero calls and zero attempts. -/
def discover_movies_between {R : Type} (op : Nat → Option R) (p : QueryParams)
    (retries : Option Nat) (fuel : Nat) : Option (Except QueryParams R) :=
  retryGo op p retries 0 0 fuel

/-- First successful outcome among calls `0, …, r - 1`, in call order
(the result `discover_movies_between` returns "as soon as an attempt
succeeds"). -/
def firstSuccess {R : Type} (op : Nat → Option R) (r : Nat) : Option R :=
  (List.range r).findSome? op

lemma findSome?_range_shift {R : Type} (g : Nat → Option R) (n k : Nat) :
    (List.range (n + 1)).findSome? (fun i => g (k + i)) =
      match g k with
      | some v => some v
      | none => (List.range n).findSome? (fun i => g (k + 1 + i)) := by
  rw [List.range_succ_eq_map, List.findSome?_cons]
  simp only [Nat.add_zero]
  cases hg : g k with
  | some v => rfl
  | none =>
    rw [List.findSome?_map]
    have hfun : ((fun i => g (k + i)) ∘ Nat.succ) = fun i => g (k + 1 + i) := by
      funext i
      simp only [Function.comp_apply, Nat.succ_eq_add_one]
      congr 1
      omega
    rw [hfun]

lemma retryGo_finite {R : Type} (op : Nat → Option R) (p : QueryParams)
    (r : Nat) : ∀ d k a fuel, a + d = r → d + 1 ≤ fuel →
    retryGo op p (some r) k a fuel =
      some (match (List.range d).findSome? (fun i => op (k + i)) with
            | some v => Except.ok v
            | none => Except.error p) := by
  intro d
  induction d with
  | zero =>
    intro k a fuel ha hf
    cases fuel with
    | zero => omega
    | succ f =>
      rw [retryGo]
      have : ¬ a < r := by omega
      simp [this]
  | succ n ih =>
    intro k a fuel ha hf
    cases fuel with
    | zero => omega
    | succ f =>
    rw [retryGo]
    have ha' : a < r := by omega
    have hc : (match (some r : Option Nat) with
        | some rr => decide (a < rr) | none => true) = true := by
      simp [ha']
    rw [if_pos hc, findSome?_range_shift op n k]
    cases hop : op k with
    | some v => simp [hop]
    | none =>
      simp only [hop]
      exact ih (k + 1) (a + 1) f (by omega) (by omega)

lemma retryGo_unbounded_no_error {R : Type} (op : Nat → Option R)
    (p : QueryParams) : ∀ fuel k a res,
    retryGo op p none k a fuel = some res → ∃ v, res = Except.ok v := by
  intro fuel
  induction fuel with
  | zero => intro k a res h; simp [retryGo] at h
  | succ n ih =>
    intro k a res h
    rw [retryGo] at h
    simp only [if_pos] at h
    cases hop : op k with
    | some v =>
      rw [hop] at h
      exact ⟨v, by simpa using h.symm⟩
    | none =>
      rw [hop] at h
      exact ih (k + 1) a res h

lemma retryGo_unbounded_all_fail {R : Type} (op : Nat → Option R)
    (p : QueryParams) (hop : ∀ k, op k = none) : ∀ fuel k a,
    retryGo op p none k a fuel = none := by
  intro fuel
  induction fuel with
  | zero => intro k a; rfl
  | succ n ih =>
    intro k a
    rw [retryGo]
    simp only [if_pos, hop k]
    exact ih (k + 1) a

/-- C6: with a finite budget of `r` attempts, `discover_movies_between`
(given enough fuel, `r + 1` loop iterations suffice) returns the first
successful call's result if any of the `r` attempts succeeds, and otherwise
raises an error carrying exactly the query parameters `p` (dates, filters,
page); with the unbounded budget (`retries = math.inf`) it never raises —
any outcome it ever produces is a success — and if every attempt fails it
loops forever (never returns, for any fuel). -/
theorem discover_retry_spec {R : Type} (op : Nat → Option R)
    (p : QueryParams) (r : Nat) :
    discover_movies_between op p (some r) (r + 1) =
        some (match firstSuccess op r with
              | some v => Except.ok v
              | none => Except.error p) ∧
      (∀ fuel res, discover_movies_between op p none fuel = some res →
        ∃ v, res = Except.ok v) ∧
      ((∀ k, op k = none) →
        ∀ fuel, discover_movies_between op p none fuel = none) := by
  refine ⟨?_, ?_, ?_⟩
  · rw [discover_movies_between,
      retryGo_finite op p r r 0 0 (r + 1) (by omega) (le_refl _)]
    simp [firstSuccess]
  · intro fuel res h
    exact retryGo_unbounded_no_error op p fuel 0 0 res h
  · intro hop fuel
    exact retryGo_unbounded_all_fail op p hop fuel 0 0

/-- Witness for C6: with a service that always fails and an unbounded
budget, the loop is still running after 7 iterations (and never raises). -/
theorem discover_retry_spec_witness :
    discover_movies_between (fun _ => (none : Option Nat))
        ⟨737425, 737430, some 40, some [28, 12], 1⟩ none 7 = none :=
  (discover_retry_spec (fun _ => (none : Option Nat))
      ⟨737425, 737430, some 40, some [28, 12], 1⟩ 3).2.2 (fun _ => rfl) 7

/-! ## Concurrent page collection (`fetch_all_pages`)

`fetch_releasedates.py` lines 255-281: one task per page in
`range(2, total_pages)`, joined by `asyncio.gather`.  A page fetch is
abstracted as `fetch : Nat → Except E R` (`.error` = that page's retries
were exhausted and `discover_movies_between` raised).  `asyncio.gather`
returns the task results in task (= page) order, and if any task raises it
propagates an exception and no result list is produced; which of several
failing tasks' exceptions surfaces depends on completion timing, so only
the page-order first error is modelled — the claims here do not depend on
which error surfaces, only on whether any does. -/

/-- The list of pages submitted to the thread pool by `fetch_all_pages`:
`range(2, total_pages)`, i.e. pages `2, …, total_pages - 1`. -/
def pageRange (total_pages : Nat) : List Nat :=
  List.range' 2 (total_pages - 2)

/-- `asyncio.gather` over the per-page fetch tasks: all results in page
order, or a propagated exception if any task raised. -/
def gatherPages {E R : Type} (fetch : Nat → Except E R) :
    List Nat → Except E (List R)
  | [] => Except.ok []
  | p :: rest =>
    match fetch p with
    | Except.error e => Except.error e
    | Except.ok v =>
      match gatherPages fetch rest with
      | Except.error e => Except.error e
      | Except.ok vs => Except.ok (v :: vs)

/-- `fetch_all_pages` (`fetch_releasedates.py` lines 255-281). -/
def fetch_all_pages {E R : Type} (fetch : Nat → Except E R)
    (total_pages : Nat) : Except E (List R) :=
  gatherPages fetch (pageRange total_pages)

lemma gatherPages_ok {E R : Type} (f : Nat → R) :
    ∀ l : List Nat,
      gatherPages (fun p => (Except.ok (f p) : Except E R)) l =
        Except.ok (l.map f)
  | [] => rfl
  | p :: rest => by
    rw [gatherPages, gatherPages_ok f rest]
    rfl

/-- C4: for every `total_pages ≥ 2`, `fetch_all_pages` submits exactly the
pages `2 … total_pages - 1` (the range excludes `total_pages` itself), one
fetch per page (the submitted page list has no duplicates and length
`total_pages - 2`), and when every fetch returns, the result holds exactly
one `ResultPage` per fetched page, in page order. -/
theorem fetch_all_pages_range {R : Type} (f : Nat → R) (tp : Nat)
    (h2 : 2 ≤ tp) :
    fetch_all_pages (fun p => (Except.ok (f p) : Except Unit R)) tp =
        Except.ok ((pageRange tp).map f) ∧
      (∀ p, p ∈ pageRange tp ↔ 2 ≤ p ∧ p < tp) ∧
      (pageRange tp).Nodup ∧
      (pageRange tp).length = tp - 2 := by
  refine ⟨gatherPages_ok f _, ?_, ?_, ?_⟩
  · intro p
    rw [pageRange, List.mem_range'_1]
    omega
  · exact List.nodup_range' ..
  · exact List.length_range' ..

/-- Witness for C4: with `total_pages = 5` the pages fetched are exactly
`[2, 3, 4]` — the last page `5` is excluded. -/
theorem fetch_all_pages_range_witness :
    fetch_all_pages (fun p => (Except.ok p : Except Unit Nat)) 5 =
        Except.ok ((pageRange 5).map id) ∧
      (∀ p, p ∈ pageRange 5 ↔ 2 ≤ p ∧ p < 5) ∧
      (pageRange 5).Nodup ∧
      (pageRange 5).length = 5 - 2 :=
  fetch_all_pages_range id 5 (by decide)

lemma gatherPages_error {E R : Type} (fetch : Nat → Except E R)
    (p : Nat) (e : E) (hf : fetch p = Except.error e) :
    ∀ l : List Nat, p ∈ l → ∀ vs, gatherPages fetch l ≠ Except.ok vs := by
  intro l
  induction l with
  | nil => intro h; simp at h
  | cons q rest ih =>
    intro hmem vs
    rw [gatherPages]
    rcases List.mem_cons.mp hmem with rfl | hrest
    · rw [hf]
      exact fun h => Except.noConfusion h
    · cases hq : fetch q with
      | error e' => exact fun h => Except.noConfusion h
      | ok v =>
        cases hg : gatherPages fetch rest with
        | error e' => exact fun h => Except.noConfusion h
        | ok vs' => exact fun h => ih hrest vs' hg

/-- C8: if any single page fetch in a slice exhausts its retry budget
(raises), the whole `fetch_all_pages` collection for that slice fails:
no list of pages — partial or otherwise — is ever produced, so
already-completed page results are discarded and
`download_all_movie_releasedates_between` (lines 83-118), which only
extends its `results` batch with the value returned by `fetch_all_pages`,
surfaces no batch for the slice. -/
theorem fetch_all_pages_failfast {E R : Type} (fetch : Nat → Except E R)
    (tp p : Nat) (e : E) (hp : p ∈ pageRange tp)
    (hf : fetch p = Except.error e) :
    ∀ vs, fetch_all_pages fetch tp ≠ Except.ok vs :=
  fun vs => gatherPages_error fetch p e hf (pageRange tp) hp vs

/-- Witness for C8: page 3 of 5 failing (pages fetched are `[2, 3, 4]`)
means no batch at all is emitted for the slice — in particular not the
batch `[2, 3, 4]` a fully successful run would return. -/
theorem fetch_all_pages_failfast_witness :
    fetch_all_pages
        (fun p => if p = 3 then Except.error "exhausted retries"
                  else Except.ok p) 5 ≠ Except.ok [2, 3, 4] :=
  fetch_all_pages_failfast
    (fun p => if p = 3 then Except.error "exhausted retries" else Except.ok p)
    5 3 "exhausted retries" (by decide) (by rfl) [2, 3, 4]

/-! ## Daily counts and doubling dates (`process_releasedates.py`)

`count_releasedates` (lines 6-17) builds a `Counter` keyed by release date
over all records read from the data files; the multiset of record dates is
the `records : List Nat` argument (file layout and CSV parsing are
external collaborators).  A `Counter`/`dict` has one entry per distinct
key; its iteration order is irrelevant because `calc_doublingdates` sorts
the items.  `calc_doublingdates` (lines 19-32) is the forward-scan
cursor loop producing one `entry` dict per distinct date. -/

/-- One `entry` dict of `calc_doublingdates`:
`{'release_date': …, 'count': …, 'sum': …}`, plus the `'doubling_date'`
key, present exactly when the loop assigned it. -/
structure Entry where
  release_date : Nat
  count : Nat
  sum : Nat
  doubling_date : Option Nat := none
deriving Repr, DecidableEq

/-- Key order used by Python's `sorted(date_counter.items())`: the items of
a `dict` have pairwise-distinct keys, so lexicographic pair comparison
reduces to comparison of the date keys. -/
def keyLE (a b : Nat × Nat) : Prop := a.1 ≤ b.1

instance : DecidableRel keyLE := fun a b => Nat.decLe a.1 b.1

instance : IsTotal (Nat × Nat) keyLE := ⟨fun a b => Nat.le_total a.1 b.1⟩

instance : IsTrans (Nat × Nat) keyLE := ⟨fun _ _ _ => Nat.le_trans⟩

/-- The inner `while entry['sum'] >= 2 * entries[cursor]['sum']` loop of
`calc_doublingdates` (lines 29-31): set `entries[cursor]['doubling_date']`
to the new entry's release date `d` and advance the cursor, while the new
entry's running sum `s` is at least twice the cursor entry's sum.
`fuel` bounds the loop; `entries.length - cursor` iterations always
suffice because the cursor only moves right.  An out-of-range cursor stops
the loop (Python would raise `IndexError` there; that state is unreachable
when all counts are positive, since then `s ≥ 2 * s` fails at the entry
just appended). -/
def assignLoop (d s : Nat) : Nat → List Entry → Nat → List Entry × Nat
  | 0, entries, cursor => (entries, cursor)
  | fuel + 1, entries, cursor =>
    match entries.get? cursor with
    | none => (entries, cursor)
    | some ec =>
      if 2 * ec.sum ≤ s then
        assignLoop d s fuel
          (entries.set cursor { ec with doubling_date := some d }) (cursor + 1)
      else
        (entries, cursor)

/-- One iteration of the `for item in sorted(date_counter.items())` loop of
`calc_doublingdates`: extend the running sum, append the new entry, then
run the cursor loop.  The accumulator is `(entries, cursor, sum)`. -/
def calcStep (acc : List Entry × Nat × Nat) (item : Nat × Nat) :
    List Entry × Nat × Nat :=
  let s := acc.2.2 + item.2
  let entries := acc.1 ++ [{ release_date := item.1, count := item.2, sum := s }]
  let r := assignLoop item.1 s (entries.length - acc.2.1) entries acc.2.1
  (r.1, r.2, s)

/-- `calc_doublingdates` (`process_releasedates.py` lines 19-32). -/
def calc_doublingdates (date_counter : List (Nat × Nat)) : List Entry :=
  ((date_counter.insertionSort keyLE).foldl calcStep ([], 0, 0)).1

/-- `count_releasedates` (`process_releasedates.py` lines 6-17): the
`Counter` over the record dates — one item per distinct date, whose count
is that date's multiplicity in `records`. -/
def count_releasedates (records : List Nat) : List (Nat × Nat) :=
  records.dedup.map (fun d => (d, records.count d))

/-- The row-writing loop of `counts_by_releasedate.py` (lines 21-25): for
each sorted counter item emit `[date, count, sum]` and only then advance
`sum` — the written running sum excludes the current date's count. -/
def writeRows : Nat → List (Nat × Nat) → List (Nat × Nat × Nat)
  | _, [] => []
  | s, item :: rest => (item.1, item.2, s) :: writeRows (s + item.2) rest

/-- The `(date, count, sum)` rows written by `counts_by_releasedate.py`
(`main`, lines 19-25) for a given multiset of record dates (its counter is
built exactly like `count_releasedates`; the different filename filter does
not affect which records of a given multiset are counted). -/
def counts_by_releasedate (records : List Nat) : List (Nat × Nat × Nat) :=
  writeRows 0 ((count_releasedates records).insertionSort keyLE)

/-- The `(release_date, count, sum)` fields of an entry — everything except
the doubling date. -/
def staticFields (e : Entry) : Nat × Nat × Nat := (e.release_date, e.count, e.sum)

/-- The doubling specification for an output sequence `es`: an entry at
index `i` carries a doubling date exactly when some entry `j` at or after
`i` has `sum ≥ 2 * sum i`, and the date carried is the one of the least
such `j` (with ascending dates: the earliest such date); an entry carries
no doubling date exactly when no entry at or after it has doubled its
cumulative sum (the data ended first). -/
def DoublingSpec (es : List Entry) : Prop :=
  ∀ i ei, es.get? i = some ei →
    (∀ dd, ei.doubling_date = some dd →
      ∃ j ej, es.get? j = some ej ∧ i ≤ j ∧ 2 * ei.sum ≤ ej.sum ∧
        dd = ej.release_date ∧
        ∀ j' ej', es.get? j' = some ej' → i ≤ j' →
          2 * ei.sum ≤ ej'.sum → j ≤ j') ∧
    (ei.doubling_date = none →
      ∀ j ej, es.get? j = some ej → i ≤ j → ¬ 2 * ei.sum ≤ ej.sum)

example : calc_doublingdates [(1, 5), (3, 5), (10, 10)] =
    [⟨1, 5, 5, some 3⟩, ⟨3, 5, 10, some 10⟩, ⟨10, 10, 20, none⟩] := by decide

example : calc_doublingdates [(10, 10), (1, 5), (3, 5)] =
    [⟨1, 5, 5, some 3⟩, ⟨3, 5, 10, some 10⟩, ⟨10, 10, 20, none⟩] := by decide

example : counts_by_releasedate [3, 1, 3, 7] =
    [(1, 1, 0), (3, 2, 1), (7, 1, 3)] := by decide

example : (calc_doublingdates (count_releasedates [3, 1, 3, 7])).map staticFields =
    [(1, 1, 1), (3, 2, 3), (7, 1, 4)] := by decide

lemma set_get?_self {α : Type} : ∀ (l : List α) (i : Nat) (a : α),
    l.get? i = some a → l.set i a = l
  | [], i, a => by simp
  | x :: xs, 0, a => by
    intro h
    simp only [List.get?] at h
    simp [Option.some.inj h]
  | x :: xs, i + 1, a => by
    intro h
    simp only [List.get?] at h
    simp [set_get?_self xs i a h]

lemma assignLoop_static (d s : Nat) : ∀ (fuel : Nat) (entries : List Entry)
    (cursor : Nat),
    ((assignLoop d s fuel entries cursor).1).map staticFields =
      entries.map staticFields
  | 0, entries, cursor => rfl
  | fuel + 1, entries, cursor => by
    rw [assignLoop]
    split
    · rfl
    next ec hc =>
      split
      next h2 =>
        rw [assignLoop_static d s fuel]
        have hmap : (entries.set cursor { ec with doubling_date := some d }).map
            staticFields = (entries.map staticFields).set cursor
              (staticFields { ec with doubling_date := some d }) :=
          List.map_set ..
        rw [hmap]
        have hget : (entries.map staticFields).get? cursor =
            some (staticFields ec) := by
          rw [List.get?_map, hc]
          rfl
        exact set_get?_self _ cursor _ hget
      next h2 => rfl

lemma assignLoop_spec (d s : Nat) : ∀ (fuel : Nat) (entries : List Entry)
    (cursor : Nat) (es' : List Entry) (c' : Nat),
    assignLoop d s fuel entries cursor = (es', c') →
    entries.length ≤ cursor + fuel →
    es'.length = entries.length ∧
    cursor ≤ c' ∧
    (∀ i, i < cursor ∨ c' ≤ i → es'.get? i = entries.get? i) ∧
    (∀ i, cursor ≤ i → i < c' →
      ∃ ec, entries.get? i = some ec ∧
        es'.get? i = some { ec with doubling_date := some d } ∧
        2 * ec.sum ≤ s) ∧
    (∀ ec, entries.get? c' = some ec → ¬ 2 * ec.sum ≤ s) := by
  intro fuel
  induction fuel with
  | zero =>
    intro entries cursor es' c' heq hlen
    obtain ⟨rfl, rfl⟩ : entries = es' ∧ cursor = c' := by
      simpa [assignLoop, Prod.ext_iff] using heq
    refine ⟨rfl, le_refl _, fun i _ => rfl, fun i h1 h2 => absurd h2 (by omega),
      fun ec h => ?_⟩
    rw [List.get?_eq_none.mpr (by omega)] at h
    exact Option.noConfusion h
  | succ n ih =>
    intro entries cursor es' c' heq hlen
    rw [assignLoop] at heq
    split at heq
    next hc =>
      obtain ⟨rfl, rfl⟩ : entries = es' ∧ cursor = c' := by
        simpa [Prod.ext_iff] using heq
      refine ⟨rfl, le_refl _, fun i _ => rfl,
        fun i h1 h2 => absurd h2 (by omega), fun ec h => ?_⟩
      rw [hc] at h
      exact Option.noConfusion h
    next ec hc =>
      have hcl : cursor < entries.length := (List.get?_eq_some.mp hc).1
      split at heq
      next h2 =>
        have hlen' : (entries.set cursor
            { ec with doubling_date := some d }).length ≤ (cursor + 1) + n := by
          rw [List.length_set]
          omega
        obtain ⟨ih1, ih2, ih3, ih4, ih5⟩ := ih _ _ _ _ heq hlen'
        have hsetlen : (entries.set cursor
            { ec with doubling_date := some d }).length = entries.length :=
          List.length_set ..
        refine ⟨ih1.trans hsetlen, by omega, ?_, ?_, ?_⟩
        · intro i hi
          have hne : cursor ≠ i := by omega
          rw [ih3 i (by omega), List.get?_set_ne _ _ hne]
        · intro i hi1 hi2
          rcases Nat.eq_or_lt_of_le hi1 with rfl | hlt
          · refine ⟨ec, hc, ?_, h2⟩
            rw [ih3 cursor (Or.inl (by omega)),
              List.get?_set_eq_of_lt _ hcl]
          · obtain ⟨ec', hent, hes, hcond⟩ := ih4 i (by omega) hi2
            have hne : cursor ≠ i := by omega
            rw [List.get?_set_ne _ _ hne] at hent
            exact ⟨ec', hent, hes, hcond⟩
        · intro ec' h
          have hne : cursor ≠ c' := by omega
          apply ih5 ec'
          rw [List.get?_set_ne _ _ hne]
          exact h
      next h2 =>
        obtain ⟨rfl, rfl⟩ : entries = es' ∧ cursor = c' := by
          simpa [Prod.ext_iff] using heq
        refine ⟨rfl, le_refl _, fun i _ => rfl,
          fun i h1 hlt => absurd hlt (by omega), fun ec' h => ?_⟩
        rw [hc] at h
        rw [← Option.some.inj h]
        exact h2

lemma take_sum_mono (l : List Nat) {i j : Nat} (hij : i ≤ j) :
    (l.take i).sum ≤ (l.take j).sum := by
  have h1 : (l.take j).take i = l.take i := by
    rw [List.take_take, Nat.min_eq_left hij]
  calc (l.take i).sum = ((l.take j).take i).sum := by rw [h1]
    _ ≤ ((l.take j).take i).sum + ((l.take j).drop i).sum := Nat.le_add_right _ _
    _ = (l.take j).sum := List.sum_take_add_sum_drop _ _

/-- Invariant of the `for item in sorted(...)` loop of `calc_doublingdates`
over the accumulator `(entries, cursor, sum)`: the running sum totals the
counts so far, every count is positive, each entry's `sum` field is the
inclusive prefix sum of counts, release dates are strictly ascending, the
cursor splits the entries into an assigned region (exactly those with a
doubling date) and an unassigned region none of whose entries has had its
sum doubled yet, and the entries so far satisfy the doubling
specification. -/
def CalcInv (st : List Entry × Nat × Nat) : Prop :=
  st.2.2 = (st.1.map Entry.count).sum ∧
  (∀ i ei, st.1.get? i = some ei → 0 < ei.count) ∧
  (∀ i ei, st.1.get? i = some ei →
    ei.sum = ((st.1.take (i + 1)).map Entry.count).sum) ∧
  List.Chain' (· < ·) (st.1.map Entry.release_date) ∧
  st.2.1 ≤ st.1.length ∧
  (∀ i ei, st.1.get? i = some ei → (i < st.2.1 ↔ ei.doubling_date.isSome)) ∧
  (∀ i ei, st.1.get? i = some ei → st.2.1 ≤ i → ¬ 2 * ei.sum ≤ st.2.2) ∧
  DoublingSpec st.1

lemma calcInv_init : CalcInv ([], 0, 0) := by
  refine ⟨rfl, ?_, ?_, List.chain'_nil, le_refl _, ?_, ?_, ?_⟩ <;>
    intro i ei h <;> simp at h

lemma calcStep_inv (es : List Entry) (c S : Nat) (item : Nat × Nat)
    (hinv : CalcInv (es, c, S)) (hpos : 0 < item.2)
    (hdate : ∀ i ei, es.get? i = some ei → ei.release_date < item.1) :
    CalcInv (calcStep (es, c, S) item) ∧
    ((calcStep (es, c, S) item).1).map Entry.release_date =
      es.map Entry.release_date ++ [item.1] := by
  obtain ⟨h1, h2, h3, h4, h5, h6, h7, h8⟩ := hinv
  obtain ⟨d, ct⟩ := item
  simp only at h1 h2 h3 h4 h5 h6 h7 h8 hpos hdate ⊢
  set s' := S + ct with hs'
  set e0 : Entry := { release_date := d, count := ct, sum := s' } with he0
  set entries1 := es ++ [e0] with hentries1
  set n := es.length with hn
  rcases hr : assignLoop d s' (entries1.length - c) entries1 c with ⟨es2, c2⟩
  have hcalc : calcStep (es, c, S) (d, ct) = (es2, c2, s') := by
    show ((assignLoop d s' (entries1.length - c) entries1 c).1,
      (assignLoop d s' (entries1.length - c) entries1 c).2, s') = (es2, c2, s')
    rw [hr]
  rw [hcalc]
  have hlen1 : entries1.length = n + 1 := by
    rw [hentries1, List.length_append, List.length_singleton]
  have hfuel : entries1.length ≤ c + (entries1.length - c) := by omega
  obtain ⟨A1, A2, A3, A4, A5⟩ :=
    assignLoop_spec d s' (entries1.length - c) entries1 c es2 c2 hr hfuel
  have hlen2 : es2.length = n + 1 := A1.trans hlen1
  have hgetlt : ∀ i, i < n → entries1.get? i = es.get? i := by
    intro i hi
    exact List.get?_append hi
  have hgetn : entries1.get? n = some e0 := by
    rw [hentries1, hn]
    exact List.get?_concat_length es e0
  have hs'pos : 0 < s' := by omega
  have hcn : c ≤ n := h5
  have hc2n : c2 ≤ n := by
    by_contra hcon
    push_neg at hcon
    obtain ⟨ec, hec, _, hcond⟩ := A4 n (by omega) (by omega)
    rw [hgetn] at hec
    rw [← Option.some.inj hec] at hcond
    simp only [he0] at hcond
    omega
  have hstat : es2.map staticFields = entries1.map staticFields := by
    have hst := assignLoop_static d s' (entries1.length - c) entries1 c
    rw [hr] at hst
    exact hst
  have hproj : ∀ i, (es2.get? i).map staticFields =
      (entries1.get? i).map staticFields := by
    intro i
    rw [← List.get?_map, ← List.get?_map, hstat]
  have hfields : ∀ i a, es2.get? i = some a → ∃ b, entries1.get? i = some b ∧
      a.release_date = b.release_date ∧ a.count = b.count ∧ a.sum = b.sum := by
    intro i a ha
    have hp := hproj i
    rw [ha] at hp
    cases hb : entries1.get? i with
    | none => rw [hb] at hp; exact Option.noConfusion hp
    | some b =>
      rw [hb] at hp
      refine ⟨b, rfl, ?_⟩
      have hsf : staticFields a = staticFields b := Option.some.inj hp
      simpa [staticFields, Prod.ext_iff] using hsf
  have hfields' : ∀ i b, entries1.get? i = some b → ∃ a, es2.get? i = some a ∧
      a.release_date = b.release_date ∧ a.count = b.count ∧ a.sum = b.sum := by
    intro i b hb
    have hp := hproj i
    rw [hb] at hp
    cases ha : es2.get? i with
    | none => rw [ha] at hp; exact Option.noConfusion hp
    | some a =>
      rw [ha] at hp
      refine ⟨a, rfl, ?_⟩
      have hsf : staticFields a = staticFields b := Option.some.inj hp
      simpa [staticFields, Prod.ext_iff] using hsf
  have hSle : ∀ j ej, es.get? j = some ej → ej.sum ≤ S := by
    intro j ej hj
    have hjl : j < n := by
      have := (List.get?_eq_some.mp hj).1
      omega
    rw [h3 j ej hj, h1, List.map_take]
    calc ((es.map Entry.count).take (j + 1)).sum
        ≤ ((es.map Entry.count).take (es.map Entry.count).length).sum :=
          take_sum_mono _ (by rw [List.length_map]; omega)
      _ = (es.map Entry.count).sum := by rw [List.take_length]
  have hmono : ∀ i j ei ej, es.get? i = some ei → es.get? j = some ej →
      i ≤ j → ei.sum ≤ ej.sum := by
    intro i j ei ej hi hj hij
    rw [h3 i ei hi, h3 j ej hj, List.map_take, List.map_take]
    exact take_sum_mono _ (by omega)
  have hdates2 : es2.map Entry.release_date = es.map Entry.release_date ++ [d] := by
    have e1 : es2.map Entry.release_date =
        (es2.map staticFields).map (fun r => r.1) := by
      rw [List.map_map]; rfl
    rw [e1, hstat, List.map_map]
    show entries1.map Entry.release_date = _
    rw [hentries1, List.map_append]
    rfl
  have hcounts2 : es2.map Entry.count = es.map Entry.count ++ [ct] := by
    have e1 : es2.map Entry.count =
        (es2.map staticFields).map (fun r => r.2.1) := by
      rw [List.map_map]; rfl
    rw [e1, hstat, List.map_map]
    show entries1.map Entry.count = _
    rw [hentries1, List.map_append]
    rfl
  -- position of an index of `es2`
  have hsplit : ∀ i (a : Entry), es2.get? i = some a → i < n ∨ i = n := by
    intro i a ha
    have := (List.get?_eq_some.mp ha).1
    omega
  -- the new running-sum bound for the unassigned region (conjunct 7)
  have hC7 : ∀ i ei, es2.get? i = some ei → c2 ≤ i → ¬ 2 * ei.sum ≤ s' := by
    intro i ei hi hge
    have hi1 : es2.get? i = entries1.get? i := A3 i (Or.inr hge)
    rcases hsplit i ei hi with hlt | rfl
    · have hies : es.get? i = some ei := by rw [← hgetlt i hlt, ← hi1, hi]
      have hc2lt : c2 < n := by omega
      obtain ⟨hltl, _⟩ := List.get?_eq_some.mp
        (show es.get? c2 = some (es.get ⟨c2, by omega⟩) from
          List.get?_eq_get (by omega))
      have hstop := A5 (es.get ⟨c2, by omega⟩)
        (by rw [hgetlt c2 hc2lt]; exact List.get?_eq_get (by omega))
      have hm := hmono c2 i (es.get ⟨c2, by omega⟩) ei
        (List.get?_eq_get (by omega)) hies hge
      omega
    · have : entries1.get? n = some ei := by rw [← hi1, hi]
      rw [hgetn] at this
      rw [← Option.some.inj this, he0]
      simp only []
      omega
  refine ⟨⟨?_, ?_, ?_, ?_, ?_, ?_, hC7, ?_⟩, hdates2⟩
  · -- running sum = total of counts
    rw [hcounts2, List.sum_append, ← h1]
    simp
  · -- counts positive
    intro i ei hi
    obtain ⟨b, hb, _, hcnt, _⟩ := hfields i ei hi
    rw [hcnt]
    rcases hsplit i ei hi with hlt | rfl
    · rw [hgetlt i hlt] at hb
      exact h2 i b hb
    · rw [hgetn] at hb
      rw [← Option.some.inj hb, he0]
      exact hpos
  · -- prefix sums
    intro i ei hi
    obtain ⟨b, hb, _, _, hsum⟩ := hfields i ei hi
    rw [hsum, List.map_take, hcounts2]
    rcases hsplit i ei hi with hlt | rfl
    · rw [List.take_append_eq_append_take,
        (by rw [List.length_map]; omega : i + 1 - (es.map Entry.count).length = 0),
        List.take_zero, List.append_nil]
      rw [hgetlt i hlt] at hb
      rw [h3 i b hb, List.map_take]
    · rw [hgetn] at hb
      rw [← Option.some.inj hb, he0]
      simp only []
      rw [List.take_of_length_le (by simp only [List.length_append,
        List.length_map, List.length_singleton]; omega)]
      simp [hs', h1]
  · -- strictly ascending release dates
    rw [hdates2, List.chain'_append]
    refine ⟨h4, List.chain'_singleton d, ?_⟩
    intro x hx y hy
    rw [List.head?_cons, Option.mem_def] at hy
    rw [← Option.some.inj hy]
    have hxmem : x ∈ es.map Entry.release_date := List.mem_of_mem_getLast? hx
    obtain ⟨e, hemem, rfl⟩ := List.mem_map.mp hxmem
    obtain ⟨k, hk⟩ := List.mem_iff_get?.mp hemem
    exact hdate k e hk
  · -- cursor stays within bounds
    show c2 ≤ es2.length
    omega
  · -- assigned region = entries with a doubling date
    intro i ei hi
    simp only at hi ⊢
    rcases Nat.lt_or_ge i c with hic | hic
    · have hies : es.get? i = some ei := by
        rw [← hgetlt i (by omega), ← A3 i (Or.inl hic), hi]
      constructor
      · intro _; exact (h6 i ei hies).mp hic
      · intro _; omega
    · rcases Nat.lt_or_ge i c2 with hicc | hicc
      · obtain ⟨ec, _, hec2, _⟩ := A4 i hic hicc
        rw [hi] at hec2
        have heq : ei = { ec with doubling_date := some d } :=
          Option.some.inj hec2
        simp [heq, hicc]
      · have hi1 : es2.get? i = entries1.get? i := A3 i (Or.inr hicc)
        constructor
        · intro hlt; omega
        · intro hsome
          exfalso
          rcases hsplit i ei hi with hlt | rfl
          · have hies : es.get? i = some ei := by
              rw [← hgetlt i hlt, ← hi1, hi]
            have := (h6 i ei hies).mpr hsome
            omega
          · have : entries1.get? n = some ei := by rw [← hi1, hi]
            rw [hgetn] at this
            rw [← Option.some.inj this, he0] at hsome
            simp at hsome
  · -- the doubling specification is preserved
    intro i ei hi
    constructor
    · -- an assigned entry points at the least doubling index
      intro dd hdd
      rcases Nat.lt_or_ge i c with hic | hic
      · -- previously assigned: its old witness is untouched
        have hies : es.get? i = some ei := by
          rw [← hgetlt i (by omega), ← A3 i (Or.inl hic), hi]
        obtain ⟨j, ej, hj, hij, hcond, hddate, hmin⟩ :=
          (h8 i ei hies).1 dd hdd
        have hjn : j < n := by
          have := (List.get?_eq_some.mp hj).1
          omega
        obtain ⟨ej2, hj2, hjd, _, hjs⟩ := hfields' j ej
          (by rw [hgetlt j hjn]; exact hj)
        refine ⟨j, ej2, hj2, hij, by omega, by rw [hddate, hjd], ?_⟩
        intro j' ej' hj' hij' hcond'
        obtain ⟨b, hb, _, _, hbs⟩ := hfields j' ej' hj'
        rcases hsplit j' ej' hj' with hlt | rfl
        · rw [hgetlt j' hlt] at hb
          exact hmin j' b hb hij' (by omega)
        · omega
      · rcases Nat.lt_or_ge i c2 with hicc | hicc
        · -- newly assigned: the new entry `n` is the least doubling index
          obtain ⟨ec, hec1, hec2, heccond⟩ := A4 i hic hicc
          have hin : i < n := by omega
          have heces : es.get? i = some ec := by rw [← hgetlt i hin, hec1]
          rw [hi] at hec2
          have heiec : ei = { ec with doubling_date := some d } :=
            Option.some.inj hec2
          have hdd' : dd = d := by
            rw [heiec] at hdd
            exact Option.some.inj hdd.symm
          obtain ⟨en2, hn2, hnd, _, hns⟩ := hfields' n e0 hgetn
          have heisum : ei.sum = ec.sum := by rw [heiec]
          refine ⟨n, en2, hn2, by omega, ?_, ?_, ?_⟩
          · rw [hns, heisum, he0]
            exact heccond
          · rw [hdd', hnd, he0]
          · intro j' ej' hj' hij' hcond'
            by_contra hcon
            push_neg at hcon
            have hj'n : j' < n := by omega
            obtain ⟨b, hb, _, _, hbs⟩ := hfields j' ej' hj'
            rw [hgetlt j' hj'n] at hb
            have hecnone : ec.doubling_date = none := by
              rcases hdn : ec.doubling_date with _ | v
              · rfl
              · exact absurd ((h6 i ec heces).mpr (by rw [hdn]; rfl)) (by omega)
            exact (h8 i ec heces).2 hecnone j' b hb hij'
              (by rw [← hbs, ← heisum]; exact hcond')
        · -- in the unassigned region nothing carries a doubling date
          exfalso
          have hi1 : es2.get? i = entries1.get? i := A3 i (Or.inr hicc)
          rcases hsplit i ei hi with hlt | rfl
          · have hies : es.get? i = some ei := by
              rw [← hgetlt i hlt, ← hi1, hi]
            have hnone : ¬ ei.doubling_date.isSome := by
              intro hs
              have := (h6 i ei hies).mpr hs
              omega
            rw [hdd] at hnone
            exact hnone rfl
          · have : entries1.get? n = some ei := by rw [← hi1, hi]
            rw [hgetn] at this
            rw [← Option.some.inj this, he0] at hdd
            exact Option.noConfusion hdd
    · -- an unassigned entry has not doubled against anything at or after it
      intro hnone j ej hj hij
      rcases Nat.lt_or_ge i c with hic | hic
      · exfalso
        have hies : es.get? i = some ei := by
          rw [← hgetlt i (by omega), ← A3 i (Or.inl hic), hi]
        have := (h6 i ei hies).mp hic
        rw [hnone] at this
        simp at this
      · rcases Nat.lt_or_ge i c2 with hicc | hicc
        · exfalso
          obtain ⟨ec, _, hec2, _⟩ := A4 i hic hicc
          rw [hi] at hec2
          rw [Option.some.inj hec2] at hnone
          simp at hnone
        · rcases hsplit j ej hj with hjlt | rfl
          · have hin : i < n := by omega
            have hi1 : es2.get? i = entries1.get? i := A3 i (Or.inr hicc)
            have hies : es.get? i = some ei := by
              rw [← hgetlt i hin, ← hi1, hi]
            have hj1 : es2.get? j = entries1.get? j := A3 j (Or.inr (by omega))
            have hjes : es.get? j = some ej := by
              rw [← hgetlt j hjlt, ← hj1, hj]
            have hinone : ei.doubling_date = none := by
              rcases hdn : ei.doubling_date with _ | v
              · rfl
              · exact absurd ((h6 i ei hies).mpr (by rw [hdn]; rfl)) (by omega)
            exact (h8 i ei hies).2 hinone j ej hjes hij
          · have hj1 : es2.get? n = entries1.get? n := A3 n (Or.inr (by omega))
            have : entries1.get? n = some ej := by rw [← hj1, hj]
            rw [hgetn] at this
            rw [← Option.some.inj this, he0]
            simp only []
            intro hco
            exact hC7 i ei hi hicc (by omega)

lemma calc_fold_inv : ∀ (items : List (Nat × Nat)) (es : List Entry) (c S : Nat),
    CalcInv (es, c, S) →
    items.Pairwise (fun a b => a.1 < b.1) →
    (∀ p ∈ items, 0 < p.2) →
    (∀ p ∈ items, ∀ i ei, es.get? i = some ei → ei.release_date < p.1) →
    CalcInv (items.foldl calcStep (es, c, S))
  | [], es, c, S, hinv, _, _, _ => hinv
  | item :: rest, es, c, S, hinv, hpair, hpos, hdate => by
    rw [List.foldl_cons]
    obtain ⟨hstep, hdates⟩ := calcStep_inv es c S item hinv
      (hpos item (List.mem_cons_self ..))
      (fun i ei h => hdate item (List.mem_cons_self ..) i ei h)
    rcases hst : calcStep (es, c, S) item with ⟨es1, c1, S1⟩
    rw [hst] at hstep hdates
    simp only at hdates
    refine calc_fold_inv rest es1 c1 S1 hstep
      (List.pairwise_cons.mp hpair).2
      (fun p hp => hpos p (List.mem_cons_of_mem _ hp)) ?_
    intro p hp i ei hi
    have hmem : ei.release_date ∈ es.map Entry.release_date ++ [item.1] := by
      rw [← hdates]
      exact List.mem_map_of_mem Entry.release_date (List.get?_mem hi)
    rcases List.mem_append.mp hmem with hm | hm
    · obtain ⟨e, hemem, heq⟩ := List.mem_map.mp hm
      obtain ⟨k, hk⟩ := List.mem_iff_get?.mp hemem
      calc ei.release_date = e.release_date := heq.symm
        _ < item.1 := hdate item (List.mem_cons_self ..) k e hk
        _ < p.1 := (List.pairwise_cons.mp hpair).1 p hp
    · rw [List.mem_singleton.mp hm]
      exact (List.pairwise_cons.mp hpair).1 p hp

/-- The `(date, count, running sum)` triples produced by scanning `items`
with running total starting at `S` — the static part of the scan shared by
`calc_doublingdates` and `counts_by_releasedate` (the latter records the
running total *before* adding the item's count, this one after). -/
def statics : Nat → List (Nat × Nat) → List (Nat × Nat × Nat)
  | _, [] => []
  | S, it :: rest => (it.1, it.2, S + it.2) :: statics (S + it.2) rest

lemma calcStep_static (es : List Entry) (c S : Nat) (item : Nat × Nat) :
    ((calcStep (es, c, S) item).1).map staticFields =
      es.map staticFields ++ [(item.1, item.2, S + item.2)] ∧
    (calcStep (es, c, S) item).2.2 = S + item.2 := by
  constructor
  · show ((assignLoop item.1 (S + item.2)
        ((es ++ [({ release_date := item.1,
                    count := item.2,
                    sum := S + item.2 } : Entry)]).length - c)
        (es ++ [({ release_date := item.1,
                   count := item.2,
                   sum := S + item.2 } : Entry)]) c).1).map staticFields = _
    rw [assignLoop_static, List.map_append]
    rfl
  · rfl

lemma calc_fold_static : ∀ (items : List (Nat × Nat)) (es : List Entry)
    (c S : Nat),
    ((items.foldl calcStep (es, c, S)).1).map staticFields =
      es.map staticFields ++ statics S items
  | [], es, c, S => by simp [statics]
  | item :: rest, es, c, S => by
    rw [List.foldl_cons, statics]
    obtain ⟨hm, hS⟩ := calcStep_static es c S item
    rcases hst : calcStep (es, c, S) item with ⟨es1, c1, S1⟩
    rw [hst] at hm hS
    simp only at hm hS
    rw [calc_fold_static rest es1 c1 S1, hm, hS, List.append_assoc,
      List.singleton_append]

lemma statics_proj : ∀ (S : Nat) (items : List (Nat × Nat)),
    (statics S items).map (fun r => (r.1, r.2.1)) = items
  | _, [] => rfl
  | S, it :: rest => by
    rw [statics, List.map_cons, statics_proj (S + it.2) rest]

lemma statics_fst : ∀ (S : Nat) (items : List (Nat × Nat)),
    (statics S items).map (fun r => r.1) = items.map Prod.fst
  | _, [] => rfl
  | S, it :: rest => by
    rw [statics, List.map_cons, List.map_cons, statics_fst (S + it.2) rest]

lemma statics_count : ∀ (S : Nat) (items : List (Nat × Nat)),
    (statics S items).map (fun r => r.2.1) = items.map Prod.snd
  | _, [] => rfl
  | S, it :: rest => by
    rw [statics, List.map_cons, List.map_cons, statics_count (S + it.2) rest]

lemma statics_sum_chain : ∀ (S : Nat) (items : List (Nat × Nat)),
    List.Chain' (· ≤ ·) ((statics S items).map (fun r => r.2.2))
  | _, [] => List.chain'_nil
  | S, [it] => by simp [statics]
  | S, it :: it2 :: rest2 => by
    have ih := statics_sum_chain (S + it.2) (it2 :: rest2)
    rw [statics, List.map_cons]
    refine List.chain'_cons'.mpr ⟨?_, ih⟩
    intro h hh
    rw [statics, List.map_cons, List.head?_cons] at hh
    rw [← Option.some.inj hh]
    exact Nat.le_add_right _ _

lemma statics_writeRows : ∀ (S : Nat) (items : List (Nat × Nat)),
    statics S items =
      (writeRows S items).map (fun r => (r.1, r.2.1, r.2.2 + r.2.1))
  | _, [] => rfl
  | S, it :: rest => by
    rw [statics, writeRows, List.map_cons, statics_writeRows (S + it.2) rest]

/-- C2: for every ascending sequence of daily counts with positive counts,
`calc_doublingdates` satisfies the doubling specification — an entry gets a
doubling date exactly when some entry at or after it has at least twice its
cumulative sum, and then the date is that of the least (given ascending
dates: earliest) such entry; entries for which the data ends before
doubling get none.  Output entries keep the input dates in order, so least
index means earliest date.  On the spec's concrete scenario
`[(2020-01-01, 5), (2020-01-03, 5), (2020-01-10, 10)]` the sums are
`5, 10, 20`, `2020-01-01` doubles on `2020-01-03` (2 days later) and
`2020-01-03` doubles on `2020-01-10` (7 days later). -/
theorem calc_doublingdates_spec (items : List (Nat × Nat))
    (hsort : items.Pairwise (fun a b => a.1 < b.1))
    (hpos : ∀ p ∈ items, 0 < p.2) :
    DoublingSpec (calc_doublingdates items) ∧
    (calc_doublingdates items).map Entry.release_date = items.map Prod.fst ∧
    calc_doublingdates
        [(rataDie 2020 1 1, 5), (rataDie 2020 1 3, 5), (rataDie 2020 1 10, 10)] =
      [{ release_date := rataDie 2020 1 1, count := 5, sum := 5,
         doubling_date := some (rataDie 2020 1 3) },
       { release_date := rataDie 2020 1 3, count := 5, sum := 10,
         doubling_date := some (rataDie 2020 1 10) },
       { release_date := rataDie 2020 1 10, count := 10, sum := 20,
         doubling_date := none }] ∧
    rataDie 2020 1 3 - rataDie 2020 1 1 = 2 ∧
    rataDie 2020 1 10 - rataDie 2020 1 3 = 7 := by
  have hsorted : items.Sorted keyLE := hsort.imp (fun h => le_of_lt h)
  have hfix : items.insertionSort keyLE = items := hsorted.insertionSort_eq
  refine ⟨?_, ?_, by decide, by decide, by decide⟩
  · rw [calc_doublingdates, hfix]
    exact (calc_fold_inv items [] 0 0 calcInv_init hsort hpos
      (by intro p hp i ei h; simp at h)).2.2.2.2.2.2.2
  · rw [calc_doublingdates, hfix]
    have hmm : ((items.foldl calcStep ([], 0, 0)).1).map Entry.release_date =
        (((items.foldl calcStep ([], 0, 0)).1).map staticFields).map
          (fun r => r.1) := by
      rw [List.map_map]
      rfl
    rw [hmm, calc_fold_static items [] 0 0]
    simp only [List.map_nil, List.nil_append]
    exact statics_fst 0 items

/-- Witness for C2: the doubling specification holds of the concrete
scenario's output. -/
theorem calc_doublingdates_spec_witness :
    DoublingSpec (calc_doublingdates
      [(rataDie 2020 1 1, 5), (rataDie 2020 1 3, 5), (rataDie 2020 1 10, 10)]) :=
  (calc_doublingdates_spec
    [(rataDie 2020 1 1, 5), (rataDie 2020 1 3, 5), (rataDie 2020 1 10, 10)]
    (by decide) (by decide)).1

/-- C9: for every multiset of dated records, the counter-plus-scan pipeline
(`count_releasedates` then `calc_doublingdates`) yields a sequence whose
`(date, count)` pairs are exactly one pair per distinct date with `count`
the number of records bearing that date (a permutation of the counter),
sorted strictly ascending by date, whose counts sum to the number of input
records, and whose `cumulative_sum` is the running total of the counts
over the sorted sequence — each entry's `sum` equals the sum of the counts
of all entries up to and including it — and hence non-decreasing. -/
theorem count_releasedates_spec (records : List Nat) :
    ((calc_doublingdates (count_releasedates records)).map
        (fun e => (e.release_date, e.count))).Perm
      (records.dedup.map (fun d => (d, records.count d))) ∧
    List.Chain' (· < ·)
      ((calc_doublingdates (count_releasedates records)).map
        Entry.release_date) ∧
    ((calc_doublingdates (count_releasedates records)).map Entry.count).sum =
      records.length ∧
    (∀ i ei, (calc_doublingdates (count_releasedates records)).get? i =
        some ei →
      ei.sum = (((calc_doublingdates (count_releasedates records)).take
        (i + 1)).map Entry.count).sum) ∧
    List.Chain' (· ≤ ·)
      ((calc_doublingdates (count_releasedates records)).map Entry.sum) := by
  have hperm : ((count_releasedates records).insertionSort keyLE).Perm
      (count_releasedates records) := List.perm_insertionSort keyLE _
  have hkeys : (count_releasedates records).map Prod.fst = records.dedup := by
    rw [count_releasedates, List.map_map]
    have hcomp : (Prod.fst ∘ fun d : Nat => (d, records.count d)) = id := rfl
    rw [hcomp, List.map_id]
  have hnodup : (((count_releasedates records).insertionSort keyLE).map
      Prod.fst).Nodup := by
    have hp : (((count_releasedates records).insertionSort keyLE).map
        Prod.fst).Perm records.dedup := by
      rw [← hkeys]
      exact hperm.map Prod.fst
    exact hp.nodup_iff.mpr (List.nodup_dedup records)
  have hpair : ((count_releasedates records).insertionSort keyLE).Pairwise
      (fun a b => a.1 < b.1) := by
    have h1 : ((count_releasedates records).insertionSort keyLE).Pairwise
        keyLE := List.sorted_insertionSort keyLE _
    have h2 : ((count_releasedates records).insertionSort keyLE).Pairwise
        (fun a b => a.1 ≠ b.1) := List.pairwise_map.mp hnodup
    exact (h1.and h2).imp (fun h => lt_of_le_of_ne h.1 h.2)
  have hposc : ∀ p ∈ (count_releasedates records).insertionSort keyLE,
      0 < p.2 := by
    intro p hp
    have hp2 : p ∈ count_releasedates records := hperm.mem_iff.mp hp
    rw [count_releasedates] at hp2
    obtain ⟨dd, hd, heq⟩ := List.mem_map.mp hp2
    rw [← heq]
    exact List.count_pos_iff_mem.mpr (List.mem_dedup.mp hd)
  have hinv := calc_fold_inv ((count_releasedates records).insertionSort keyLE)
    [] 0 0 calcInv_init hpair hposc (by intro p hp i ei h; simp at h)
  have hst := calc_fold_static
    ((count_releasedates records).insertionSort keyLE) [] 0 0
  simp only [List.map_nil, List.nil_append] at hst
  have hun : calc_doublingdates (count_releasedates records) =
      (((count_releasedates records).insertionSort keyLE).foldl calcStep
        ([], 0, 0)).1 := rfl
  refine ⟨?_, ?_, ?_, ?_, ?_⟩
  · have e1 : (calc_doublingdates (count_releasedates records)).map
        (fun e => (e.release_date, e.count)) =
        ((calc_doublingdates (count_releasedates records)).map
          staticFields).map (fun r => (r.1, r.2.1)) := by
      rw [List.map_map]
      rfl
    rw [e1, hun, hst, statics_proj]
    exact hperm
  · exact hinv.2.2.2.1
  · have e1 : (calc_doublingdates (count_releasedates records)).map
        Entry.count =
        ((calc_doublingdates (count_releasedates records)).map
          staticFields).map (fun r => r.2.1) := by
      rw [List.map_map]
      rfl
    rw [e1, hun, hst, statics_count]
    rw [(hperm.map Prod.snd).sum_eq]
    rw [count_releasedates, List.map_map]
    exact List.sum_map_count_dedup_eq_length records
  · intro i ei hi
    exact hinv.2.2.1 i ei hi
  · have e1 : (calc_doublingdates (count_releasedates records)).map
        Entry.sum =
        ((calc_doublingdates (count_releasedates records)).map
          staticFields).map (fun r => r.2.2) := by
      rw [List.map_map]
      rfl
    rw [e1, hun, hst]
    exact statics_sum_chain 0 _

/-- Witness for C9: on records `[3, 1, 3, 7]` the second output entry is
`(date 3, count 2, sum 3)` and its cumulative sum `3` is the running total
of the counts of the first two entries (`1 + 2`). -/
theorem count_releasedates_spec_witness :
    Entry.sum { release_date := 3, count := 2, sum := 3 } =
      (((calc_doublingdates (count_releasedates [3, 1, 3, 7])).take
        (1 + 1)).map Entry.count).sum :=
  (count_releasedates_spec [3, 1, 3, 7]).2.2.2.1 1
    { release_date := 3, count := 2, sum := 3 } (by decide)

/-- C10 counterexample: the two aggregation variants do *not* produce equal
`(date, count, cumulative_sum)` rows.  On a single record dated day 5,
`counts_by_releasedate.py` writes the row `(5, 1, 0)` (the running sum is
written *before* the current date's count is added), while the
`process_releasedates.py` pipeline records `(5, 1, 1)` (sum inclusive of
the date's own count). -/
theorem counts_vs_pipeline_cex :
    ¬ (counts_by_releasedate [5] =
       (calc_doublingdates (count_releasedates [5])).map staticFields) := by
  decide

/-- C10 amended: the two variants agree on the dates and counts of every
row, but their cumulative-sum columns differ by exactly the row's own
count: the `process_releasedates` pipeline's `sum` includes the date's own
count, while `counts_by_releasedate` writes the running total *excluding*
it (pipeline sum = script sum + count, row by row). -/
theorem counts_vs_pipeline (records : List Nat) :
    (calc_doublingdates (count_releasedates records)).map staticFields =
      (counts_by_releasedate records).map
        (fun r => (r.1, r.2.1, r.2.2 + r.2.1)) := by
  rw [counts_by_releasedate, ← statics_writeRows]
  show ((((count_releasedates records).insertionSort keyLE).foldl calcStep
    ([], 0, 0)).1).map staticFields = _
  rw [calc_fold_static]
  simp

/-! ## Forward-fill of the doubling series (`plot_days_to_double_movies.py`)

Lines 8-15 of the plot script: build the full day range from the minimum
to the maximum `release_date`, left-merge the per-date rows onto it
(absent days get missing cells in every column), then
`ffill(limit_area='inside')` — pandas fills a missing cell with the last
valid value above it in the same column, but only for cells that have a
valid value both before and after them in that column (interior gaps);
leading and trailing runs of missing cells stay missing.  `dropna` then
removes every row that still has a missing cell, which (since interior
count/sum cells always fill) drops exactly the days whose doubling cell
is still missing. -/

/-- pandas `Series.ffill(limit_area='inside')`: each missing cell whose
column has a valid value after it is replaced by the last valid value
before it (which is `none` again if there is no valid value before —
leading gaps stay missing); cells with no valid value after them are left
unchanged. -/
def ffillInside {α : Type} (col : List (Option α)) : List (Option α) :=
  (List.range col.length).map (fun i =>
    match col.getD i none with
    | some v => some v
    | none =>
      if (col.drop (i + 1)).any Option.isSome then
        ((col.take i).filterMap id).getLast?
      else none)

/-- Row lookup of the left-merge: the entry whose `release_date` is the
given day, if any. -/
def lookupDate (entries : List Entry) (t : Nat) : Option Entry :=
  entries.find? (fun e => e.release_date == t)

/-- `pandas.date_range(start_date, end_date)` with
`start_date = dataframe['release_date'].min()` and
`end_date = dataframe['release_date'].max()`: every day from the minimum
to the maximum release date, inclusive. -/
def dateRangeOf (entries : List Entry) : List Nat :=
  match (entries.map Entry.release_date).min?,
      (entries.map Entry.release_date).max? with
  | some lo, some hi => List.range' lo (hi + 1 - lo)
  | _, _ => []

/-- One column of the merged frame: for each day of the full range, the
column value `f` of that day's entry if the day is present, else missing. -/
def mergedCol {α : Type} (entries : List Entry) (f : Entry → Option α) :
    List (Option α) :=
  (dateRangeOf entries).map (fun t => (lookupDate entries t).bind f)

/-- A column of the plot's dataframe after the merge and the
`ffill(limit_area='inside')`. -/
def filledCol {α : Type} (entries : List Entry) (f : Entry → Option α) :
    List (Option α) :=
  ffillInside (mergedCol entries f)

example : filledCol (calc_doublingdates [(1, 10), (5, 15)])
    (fun e => some e.count) =
    [some 10, some 10, some 10, some 10, some 15] := by decide

example : filledCol (calc_doublingdates [(1, 10), (5, 15)])
    (fun e => e.doubling_date) = [some 5, none, none, none, none] := by decide

example : filledCol (calc_doublingdates [(1, 10), (3, 15), (5, 40)])
    (fun e => e.doubling_date) =
    [some 3, some 3, some 5, none, none] := by decide

lemma ffillInside_getD {α : Type} (col : List (Option α)) (p : Nat)
    (hp : p < col.length) :
    (ffillInside col).getD p none =
      match col.getD p none with
      | some v => some v
      | none =>
        if (col.drop (p + 1)).any Option.isSome then
          ((col.take p).filterMap id).getLast?
        else none := by
  rw [ffillInside, List.getD_eq_getElem?_getD, List.getElem?_map,
    List.getElem?_range hp]
  rfl

lemma dates_mono (entries : List Entry)
    (hpw : (entries.map Entry.release_date).Pairwise (· < ·)) :
    ∀ k j ek ej, entries.get? k = some ek → entries.get? j = some ej →
      k < j → ek.release_date < ej.release_date := by
  intro k j ek ej hk hj hkj
  obtain ⟨hkl, hke⟩ := List.get?_eq_some.mp hk
  obtain ⟨hjl, hje⟩ := List.get?_eq_some.mp hj
  have := List.pairwise_iff_get.mp hpw
    ⟨k, by rw [List.length_map]; exact hkl⟩
    ⟨j, by rw [List.length_map]; exact hjl⟩ hkj
  rw [List.get_map, List.get_map] at this
  rw [← hke, ← hje]
  exact this

lemma lookupDate_self (entries : List Entry)
    (hpw : (entries.map Entry.release_date).Pairwise (· < ·)) :
    ∀ k ek, entries.get? k = some ek →
      lookupDate entries ek.release_date = some ek := by
  induction entries with
  | nil => intro k ek hk; simp at hk
  | cons e rest ih =>
    intro k ek hk
    rw [List.map_cons, List.pairwise_cons] at hpw
    cases k with
    | zero =>
      rw [List.get?] at hk
      rw [← Option.some.inj hk, lookupDate, List.find?_cons]
      simp
    | succ k' =>
      rw [List.get?] at hk
      have hlt : e.release_date < ek.release_date := by
        apply hpw.1
        exact List.mem_map_of_mem Entry.release_date (List.get?_mem hk)
      rw [lookupDate, List.find?_cons]
      have hne : (e.release_date == ek.release_date) = false := by
        simp
        omega
      rw [hne]
      exact ih hpw.2 k' ek hk

lemma lookupDate_none (entries : List Entry) (t : Nat)
    (h : ∀ k ek, entries.get? k = some ek → ek.release_date ≠ t) :
    lookupDate entries t = none := by
  rw [lookupDate, List.find?_eq_none]
  intro e he
  obtain ⟨k, hk⟩ := List.mem_iff_get?.mp he
  simp
  exact h k e hk

lemma filter_lt_succ_split (u : Nat) :
    ∀ (entries : List Entry),
    (entries.map Entry.release_date).Pairwise (· < ·) →
    entries.filter (fun e => decide (e.release_date < u + 1)) =
      entries.filter (fun e => decide (e.release_date < u)) ++
        entries.filter (fun e => e.release_date == u)
  | [], _ => rfl
  | e :: rest, hpw => by
    rw [List.map_cons, List.pairwise_cons] at hpw
    have hrest : ∀ r ∈ rest, e.release_date < r.release_date := by
      intro r hr
      exact hpw.1 _ (List.mem_map_of_mem Entry.release_date hr)
    rw [List.filter_cons, List.filter_cons, List.filter_cons]
    rcases Nat.lt_trichotomy e.release_date u with hlt | heq | hgt
    · rw [if_pos (by simp; omega), if_pos (by simp; omega),
        if_neg (by simp; omega), List.cons_append,
        filter_lt_succ_split u rest hpw.2]
    · have h1 : rest.filter (fun r => decide (r.release_date < u)) = [] := by
        rw [List.filter_eq_nil]
        intro r hr
        have := hrest r hr
        simp
        omega
      have h2 : rest.filter (fun r => r.release_date == u) = [] := by
        rw [List.filter_eq_nil]
        intro r hr
        have := hrest r hr
        simp
        omega
      have h3 : rest.filter (fun r => decide (r.release_date < u + 1)) = [] := by
        rw [List.filter_eq_nil]
        intro r hr
        have := hrest r hr
        simp
        omega
      rw [if_pos (by simp; omega), if_neg (by simp; omega),
        if_pos (by simp [heq]), h1, h2, h3, List.nil_append]
    · rw [if_neg (by simp; omega), if_neg (by simp; omega),
        if_neg (by simp; omega), filter_lt_succ_split u rest hpw.2]

lemma filter_eq_lookup_toList (u : Nat) :
    ∀ (entries : List Entry),
    (entries.map Entry.release_date).Pairwise (· < ·) →
    entries.filter (fun e => e.release_date == u) =
      (lookupDate entries u).toList
  | [], _ => rfl
  | e :: rest, hpw => by
    rw [List.map_cons, List.pairwise_cons] at hpw
    have hrest : ∀ r ∈ rest, e.release_date < r.release_date := by
      intro r hr
      exact hpw.1 _ (List.mem_map_of_mem Entry.release_date hr)
    rw [List.filter_cons, lookupDate, List.find?_cons]
    cases hd : (e.release_date == u) with
    | true =>
      have heq : e.release_date = u := by simpa using hd
      have h2 : rest.filter (fun r => r.release_date == u) = [] := by
        rw [List.filter_eq_nil]
        intro r hr
        have := hrest r hr
        simp
        omega
      simp [h2]
    | false =>
      rw [if_neg (by decide)]
      show rest.filter _ = (rest.find? _).toList
      exact filter_eq_lookup_toList u rest hpw.2

lemma filter_eq_take_of_boundary {α : Type} :
    ∀ (l : List α) (p : α → Bool) (m : Nat),
    (∀ k a, l.get? k = some a → (p a = true ↔ k < m)) →
    l.filter p = l.take m
  | [], _, _, _ => by simp
  | x :: xs, p, 0, h => by
    have hx : ¬ p x = true := fun hpx => absurd ((h 0 x rfl).mp hpx) (by omega)
    rw [List.take_zero, List.filter_cons, if_neg hx, List.filter_eq_nil.mpr]
    intro a ha
    obtain ⟨k, hk⟩ := List.mem_iff_get?.mp ha
    exact fun hpa => absurd ((h (k + 1) a hk).mp hpa) (by omega)
  | x :: xs, p, m + 1, h => by
    have hx : p x = true := (h 0 x rfl).mpr (by omega)
    rw [List.filter_cons, if_pos hx, List.take_succ_cons,
      filter_eq_take_of_boundary xs p m]
    intro k a hk
    constructor
    · intro hpa
      have := (h (k + 1) a hk).mp hpa
      omega
    · intro hkm
      exact (h (k + 1) a hk).mpr (by omega)

lemma merged_take {α : Type} (f : Entry → Option α) (entries : List Entry)
    (hpw : (entries.map Entry.release_date).Pairwise (· < ·))
    (d0 m : Nat)
    (hd0 : ∀ k ek, entries.get? k = some ek → d0 ≤ ek.release_date) :
    ∀ p, p ≤ m →
    (((List.range' d0 m).map
        (fun t => (lookupDate entries t).bind f)).take p).filterMap id =
      (entries.filter (fun e => decide (e.release_date < d0 + p))).filterMap
        f := by
  intro p
  induction p with
  | zero =>
    intro _
    rw [List.take_zero]
    have hnil : entries.filter
        (fun e => decide (e.release_date < d0 + 0)) = [] := by
      rw [List.filter_eq_nil]
      intro e he
      obtain ⟨k, hk⟩ := List.mem_iff_get?.mp he
      have := hd0 k e hk
      simp
      omega
    rw [hnil]
    rfl
  | succ q ih =>
    intro hq
    have hq' : q < m := by omega
    have hidx : ((List.range' d0 m).map
        (fun t => (lookupDate entries t).bind f))[q]? =
        some ((lookupDate entries (d0 + q)).bind f) := by
      rw [List.getElem?_map]
      have hlr : q < (List.range' d0 m).length := by
        rw [List.length_range']
        exact hq'
      rw [List.getElem?_eq_getElem hlr, List.getElem_range']
      simp
    rw [List.take_succ, hidx, List.filterMap_append, ih (by omega),
      show d0 + (q + 1) = (d0 + q) + 1 from rfl,
      filter_lt_succ_split (d0 + q) entries hpw, List.filterMap_append]
    congr 1
    rw [filter_eq_lookup_toList (d0 + q) entries hpw]
    cases hl : lookupDate entries (d0 + q) with
    | none => rfl
    | some e => cases hf : f e <;> simp [hf, Option.toList]

/-- The first day of the plot's date range:
`dataframe['release_date'].min()`. -/
def minDate (entries : List Entry) : Nat :=
  ((entries.map Entry.release_date).min?).getD 0

/-- C5 counterexample: on the claim's own input
`{2020-01-01: sum=10, 2020-01-05: sum=25}` (counts 10 and 15), the entry
for `2020-01-01` doubles on `2020-01-05` and the entry for `2020-01-05`
has no doubling entry, so the doubling column of the merged frame is
`[some 2020-01-05, none, none, none, none]`; `ffill(limit_area='inside')`
does not fill the cells of `2020-01-02 .. 2020-01-04` because the doubling
column has no valid value after them — the day `2020-01-02` (index 1 of
the range) ends with no doubling value (and its row is then removed by
`dropna`), not with the doubling result computed for `2020-01-01`. -/
theorem plot_ffill_cex :
    (filledCol
        (calc_doublingdates [(rataDie 2020 1 1, 10), (rataDie 2020 1 5, 15)])
        (fun e => e.doubling_date)).getD
      (rataDie 2020 1 2 - rataDie 2020 1 1) none = none ∧
    ¬ ((filledCol
        (calc_doublingdates [(rataDie 2020 1 1, 10), (rataDie 2020 1 5, 15)])
        (fun e => e.doubling_date)).getD
      (rataDie 2020 1 2 - rataDie 2020 1 1) none =
        some (rataDie 2020 1 5)) := by
  refine ⟨?_, ?_⟩ <;> decide

/-- C5 amended: for sparse sorted entries, every calendar day `t` strictly
between two consecutive present dates inherits (by the inside-limited
forward fill) the earlier entry's `count` and `sum`; it inherits the
earlier entry's doubling result only when the *next* present entry also
carries a doubling result (so that the doubling column still has a valid
value after the gap); when every entry from the next one on has no
doubling result (the data ended before their sums doubled), the gap's
doubling cells are left unfilled — such days end with no doubling value
(and their rows are subsequently removed by `dropna`). -/
theorem plot_ffill_amended (entries : List Entry)
    (hchain : (entries.map Entry.release_date).Chain' (· < ·))
    (i : Nat) (ei ei1 : Entry)
    (hi : entries.get? i = some ei) (hi1 : entries.get? (i + 1) = some ei1)
    (t : Nat) (ht1 : ei.release_date < t) (ht2 : t < ei1.release_date) :
    (filledCol entries (fun e => some e.count)).getD
        (t - minDate entries) none = some ei.count ∧
    (filledCol entries (fun e => some e.sum)).getD
        (t - minDate entries) none = some ei.sum ∧
    (∀ x, ei.doubling_date = some x → ei1.doubling_date.isSome →
      (filledCol entries (fun e => e.doubling_date)).getD
        (t - minDate entries) none = some x) ∧
    ((∀ k ek, i + 1 ≤ k → entries.get? k = some ek →
        ek.doubling_date = none) →
      (filledCol entries (fun e => e.doubling_date)).getD
        (t - minDate entries) none = none) := by
  have hpw : (entries.map Entry.release_date).Pairwise (· < ·) :=
    List.chain'_iff_pairwise.mp hchain
  have hmono := dates_mono entries hpw
  have hi1n : i + 1 < entries.length := (List.get?_eq_some.mp hi1).1
  have hn0 : 0 < entries.length := by omega
  have h0 : entries.get? 0 = some (entries.get ⟨0, hn0⟩) :=
    List.get?_eq_get hn0
  set e0 := entries.get ⟨0, hn0⟩ with he0
  set d0 := e0.release_date with hd0def
  have hLn : entries.length - 1 < entries.length := by omega
  have hLget : entries.get? (entries.length - 1) =
      some (entries.get ⟨entries.length - 1, hLn⟩) := List.get?_eq_get hLn
  set eL := entries.get ⟨entries.length - 1, hLn⟩ with heL
  set dL := eL.release_date with hdLdef
  have hd0 : ∀ k ek, entries.get? k = some ek → d0 ≤ ek.release_date := by
    intro k ek hk
    rcases Nat.eq_zero_or_pos k with rfl | hkpos
    · have hee : e0 = ek := Option.some.inj (h0.symm.trans hk)
      rw [← hee]
    · exact le_of_lt (hmono 0 k e0 ek h0 hk hkpos)
  have hdL : ∀ k ek, entries.get? k = some ek → ek.release_date ≤ dL := by
    intro k ek hk
    have hkl : k < entries.length := (List.get?_eq_some.mp hk).1
    rcases Nat.lt_or_ge k (entries.length - 1) with hlt | hge
    · exact le_of_lt (hmono k (entries.length - 1) ek eL hk hLget hlt)
    · have hkk : k = entries.length - 1 := by omega
      rw [hkk] at hk
      have hee : eL = ek := Option.some.inj (hLget.symm.trans hk)
      rw [← hee]
  have hmin : (entries.map Entry.release_date).min? = some d0 := by
    refine List.min?_eq_some_iff'.mpr
      ⟨List.mem_map_of_mem _ (List.get?_mem h0), ?_⟩
    intro b hb
    obtain ⟨e, he, rfl⟩ := List.mem_map.mp hb
    obtain ⟨k, hk⟩ := List.mem_iff_get?.mp he
    exact hd0 k e hk
  have hmax : (entries.map Entry.release_date).max? = some dL := by
    refine List.max?_eq_some_iff'.mpr
      ⟨List.mem_map_of_mem _ (List.get?_mem hLget), ?_⟩
    intro b hb
    obtain ⟨e, he, rfl⟩ := List.mem_map.mp hb
    obtain ⟨k, hk⟩ := List.mem_iff_get?.mp he
    exact hdL k e hk
  have hminD : minDate entries = d0 := by
    rw [minDate, hmin]
    rfl
  set L := dL + 1 - d0 with hLdef
  have hrangeOf : dateRangeOf entries = List.range' d0 L := by
    rw [dateRangeOf, hmin, hmax]
  have hd0i : d0 ≤ ei.release_date := hd0 i ei hi
  have hdLi1 : ei1.release_date ≤ dL := hdL (i + 1) ei1 hi1
  have htL : t - d0 < L := by omega
  set p := t - d0 with hpdef
  have hdp : d0 + p = t := by omega
  have hcol : ∀ {α : Type} (f : Entry → Option α),
      mergedCol entries f = (List.range' d0 L).map
        (fun u => (lookupDate entries u).bind f) := by
    intro α f
    rw [mergedCol, hrangeOf]
  have hcollen : ∀ {α : Type} (f : Entry → Option α),
      (mergedCol entries f).length = L := by
    intro α f
    rw [hcol f, List.length_map, List.length_range']
  have hcolget : ∀ {α : Type} (f : Entry → Option α) (j : Nat), j < L →
      (mergedCol entries f).get? j =
        some ((lookupDate entries (d0 + j)).bind f) := by
    intro α f j hj
    rw [hcol f, List.get?_eq_getElem?, List.getElem?_map]
    have hlr : j < (List.range' d0 L).length := by
      rw [List.length_range']
      exact hj
    rw [List.getElem?_eq_getElem hlr, List.getElem_range']
    simp
  have hlooknone : lookupDate entries t = none := by
    apply lookupDate_none
    intro k ek hk hkt
    rcases Nat.lt_or_ge k (i + 1) with hk1 | hk1
    · rcases Nat.lt_or_ge k i with hki | hki
      · have := hmono k i ek ei hk hi hki
        omega
      · have hkk : k = i := by omega
        rw [hkk] at hk
        have hee : ei = ek := Option.some.inj (hi.symm.trans hk)
        rw [← hee] at hkt
        omega
    · rcases Nat.lt_or_ge (i + 1) k with hki | hki
      · have := hmono (i + 1) k ei1 ek hi1 hk hki
        omega
      · have hkk : k = i + 1 := by omega
        rw [hkk] at hk
        have hee : ei1 = ek := Option.some.inj (hi1.symm.trans hk)
        rw [← hee] at hkt
        omega
  have hcellp : ∀ {α : Type} (f : Entry → Option α),
      (mergedCol entries f).getD p none = none := by
    intro α f
    rw [List.getD_eq_getElem?_getD, ← List.get?_eq_getElem?,
      hcolget f p htL, hdp, hlooknone]
    rfl
  have htake : ∀ {α : Type} (f : Entry → Option α),
      ((mergedCol entries f).take p).filterMap id =
        (entries.take (i + 1)).filterMap f := by
    intro α f
    rw [hcol f, merged_take f entries hpw d0 L hd0 p (le_of_lt htL), hdp]
    congr 1
    apply filter_eq_take_of_boundary
    intro k a hk
    simp only [decide_eq_true_eq]
    constructor
    · intro hat
      by_contra hcon
      push_neg at hcon
      rcases Nat.lt_or_ge (i + 1) k with hki | hki
      · have := hmono (i + 1) k ei1 a hi1 hk hki
        omega
      · have hkk : k = i + 1 := by omega
        rw [hkk] at hk
        have hee : ei1 = a := Option.some.inj (hi1.symm.trans hk)
        rw [← hee] at hat
        omega
    · intro hki
      rcases Nat.lt_or_ge k i with hlt | hge
      · have := hmono k i a ei hk hi hlt
        omega
      · have hkk : k = i := by omega
        rw [hkk] at hk
        have hee : ei = a := Option.some.inj (hi.symm.trans hk)
        rw [← hee]
        exact ht1
  have htakelast : ∀ {α : Type} (f : Entry → Option α) (v : α),
      f ei = some v →
      (((mergedCol entries f).take p).filterMap id).getLast? = some v := by
    intro α f v hf
    rw [htake f]
    have h1 : entries.take (i + 1) = entries.take i ++ [ei] := by
      rw [List.take_succ]
      have hge : entries[i]? = some ei := by
        rw [← List.get?_eq_getElem?]
        exact hi
      rw [hge]
      rfl
    rw [h1, List.filterMap_append]
    have h2 : [ei].filterMap f = [v] := by
      simp [hf]
    rw [h2, List.getLast?_concat]
  have hafter : ∀ {α : Type} (f : Entry → Option α), (f ei1).isSome →
      ((mergedCol entries f).drop (p + 1)).any Option.isSome = true := by
    intro α f hf
    rw [List.any_eq_true]
    set p1 := ei1.release_date - d0 with hp1
    have hp1L : p1 < L := by omega
    have hcell1 : (mergedCol entries f).get? p1 = some (f ei1) := by
      rw [hcolget f p1 hp1L,
        show d0 + p1 = ei1.release_date from by omega,
        lookupDate_self entries hpw (i + 1) ei1 hi1]
      rfl
    refine ⟨f ei1, ?_, hf⟩
    have hdropget : ((mergedCol entries f).drop (p + 1)).get? (p1 - (p + 1)) =
        some (f ei1) := by
      rw [List.get?_drop, show p + 1 + (p1 - (p + 1)) = p1 from by omega]
      exact hcell1
    exact List.get?_mem hdropget
  have hafter_none : ∀ {α : Type} (f : Entry → Option α),
      (∀ k ek, i + 1 ≤ k → entries.get? k = some ek → f ek = none) →
      ((mergedCol entries f).drop (p + 1)).any Option.isSome = false := by
    intro α f hnone
    rw [List.any_eq_false]
    intro x hx
    obtain ⟨j, hj⟩ := List.mem_iff_get?.mp hx
    rw [List.get?_drop] at hj
    have hjL : p + 1 + j < L := by
      have := (List.get?_eq_some.mp hj).1
      rw [hcollen f] at this
      exact this
    rw [hcolget f (p + 1 + j) hjL] at hj
    have hx' : x = (lookupDate entries (d0 + (p + 1 + j))).bind f :=
      (Option.some.inj hj).symm
    have hut : t < d0 + (p + 1 + j) := by omega
    cases hlu : lookupDate entries (d0 + (p + 1 + j)) with
    | none => simp [hx', hlu]
    | some e =>
      have hmem : e ∈ entries := List.mem_of_find?_eq_some hlu
      have hdate : e.release_date = d0 + (p + 1 + j) := by
        simpa using List.find?_some hlu
      obtain ⟨k, hk⟩ := List.mem_iff_get?.mp hmem
      have hk1 : i + 1 ≤ k := by
        by_contra hcon
        push_neg at hcon
        rcases Nat.lt_or_ge k i with hlt | hge
        · have := hmono k i e ei hk hi hlt
          omega
        · have hkk : k = i := by omega
          rw [hkk] at hk
          have hee : ei = e := Option.some.inj (hi.symm.trans hk)
          rw [← hee] at hdate
          omega
      have hfe := hnone k e hk1 hk
      simp [hx', hlu, hfe]
  have fill_some : ∀ {α : Type} (f : Entry → Option α) (v : α),
      f ei = some v → (f ei1).isSome →
      (filledCol entries f).getD (t - minDate entries) none = some v := by
    intro α f v hf hf1
    rw [hminD]
    show (ffillInside (mergedCol entries f)).getD p none = some v
    rw [ffillInside_getD _ p (by rw [hcollen f]; exact htL), hcellp f]
    show (if ((mergedCol entries f).drop (p + 1)).any Option.isSome then
      (((mergedCol entries f).take p).filterMap id).getLast? else none) =
        some v
    rw [if_pos (hafter f hf1)]
    exact htakelast f v hf
  have fill_none : ∀ {α : Type} (f : Entry → Option α),
      (∀ k ek, i + 1 ≤ k → entries.get? k = some ek → f ek = none) →
      (filledCol entries f).getD (t - minDate entries) none = none := by
    intro α f hnone
    rw [hminD]
    show (ffillInside (mergedCol entries f)).getD p none = none
    rw [ffillInside_getD _ p (by rw [hcollen f]; exact htL), hcellp f]
    show (if ((mergedCol entries f).drop (p + 1)).any Option.isSome then
      (((mergedCol entries f).take p).filterMap id).getLast? else none) =
        none
    rw [if_neg]
    intro hcon
    rw [hafter_none f hnone] at hcon
    exact Bool.noConfusion hcon
  refine ⟨?_, ?_, ?_, ?_⟩
  · exact fill_some (fun e => some e.count) ei.count rfl rfl
  · exact fill_some (fun e => some e.sum) ei.sum rfl rfl
  · intro x hx hs
    exact fill_some (fun e => e.doubling_date) x hx hs
  · intro h
    exact fill_none (fun e => e.doubling_date) h

/-- Witness for C5's amended theorem: with entries on days 1, 3, 5 where
day 1 doubles on day 3 and day 3 doubles on day 5, the gap day 2 inherits
day 1's doubling result (the next entry still has one). -/
theorem plot_ffill_amended_witness :
    (filledCol (calc_doublingdates [(1, 10), (3, 15), (5, 40)])
        (fun e => e.doubling_date)).getD
      (2 - minDate (calc_doublingdates [(1, 10), (3, 15), (5, 40)])) none =
      some 3 :=
  (plot_ffill_amended (calc_doublingdates [(1, 10), (3, 15), (5, 40)])
    (by
      rw [show (calc_doublingdates [(1, 10), (3, 15), (5, 40)]).map
          Entry.release_date = [1, 3, 5] from by decide]
      simp) 0
    ⟨1, 10, 10, some 3⟩ ⟨3, 15, 25, some 5⟩ (by decide) (by decide)
    2 (by decide) (by decide)).2.2.1 3 rfl rfl

end MoviesByRelease
